import Mathlib

/-!
Verification of the liked-songs snapshot pipeline (`src/main.rs`).

The program normalizes Spotify saved tracks into `TrimmedTrackInfo` records,
sorts them by `(added_at, song_name)` with a stable comparison sort, serializes
them as newline-delimited compact JSON, diffs against the previously stored
snapshot and uploads the new text.  We embed the data transformations as pure
functions on lists of characters and the effectful `main` as a trace of events
parameterized by the outcomes of the external calls.
-/

namespace SpotifyLikedSongs

/-! ## Comparators

Rust's `i64::cmp` and `String::cmp`.  Rust compares strings byte-wise on their
UTF-8 encoding, which on valid UTF-8 coincides with lexicographic order on
code points, so we compare the code-point sequence (`String.data`). -/

/-- Total-order comparison on `Int`, mirroring `i64::cmp`. -/
def cmpInt (a b : Int) : Ordering :=
  if a < b then .lt else if b < a then .gt else .eq

/-- Comparison of single code points, mirroring byte comparison in Rust. -/
def cmpChar (a b : Char) : Ordering :=
  if a < b then .lt else if b < a then .gt else .eq

/-- Lexicographic comparison of code-point sequences, mirroring `str::cmp`. -/
def cmpCharList : List Char → List Char → Ordering
  | [], [] => .eq
  | [], _ :: _ => .lt
  | _ :: _, [] => .gt
  | a :: as, b :: bs => (cmpChar a b).then (cmpCharList as bs)

/-- Comparison of strings, mirroring `String::cmp` in Rust. -/
def cmpString (a b : String) : Ordering := cmpCharList a.data b.data

/-- Non-strict order induced by `cmpString`: `a` compares less-or-equal to `b`. -/
def strLe (a b : String) : Prop := cmpString a b ≠ .gt

instance (a b : String) : Decidable (strLe a b) :=
  inferInstanceAs (Decidable (cmpString a b ≠ .gt))

/-! ## Stable sorting

Rust's `slice::sort_by` / `Vec::sort` are stable sorts driven by a comparator.
A stable comparison sort is extensionally unique, so we embed it as stable
insertion sort: an element is inserted before the first element it does not
compare greater than, keeping equal elements in input order. -/

/-- Insert `x` into `l` before the first element `y` with `cmp x y ≠ .gt`. -/
def insertByCmp (cmp : α → α → Ordering) (x : α) : List α → List α
  | [] => [x]
  | y :: ys => if cmp x y = .gt then y :: insertByCmp cmp x ys else x :: y :: ys

/-- Stable sort by a comparator, as performed by `Vec::sort`/`sort_by`. -/
def sortByCmp (cmp : α → α → Ordering) (l : List α) : List α :=
  l.foldr (insertByCmp cmp) []

/-! ## Data model (`main.rs` lines 6–29) -/

/-- Artist metadata from the API; only the display name is used. -/
structure SimplifiedArtist where
  name : String
deriving DecidableEq

/-- Album metadata from the API; only the title is used. -/
structure SimplifiedAlbum where
  name : String
deriving DecidableEq

/-- Track metadata from the API: title, artists and album. -/
structure FullTrack where
  name : String
  artists : List SimplifiedArtist
  album : SimplifiedAlbum
deriving DecidableEq

/-- A raw saved-library entry: the added-at instant (already taken to its Unix
timestamp in seconds, as `DateTime::timestamp` does) and the track. -/
structure SavedTrack where
  added_at : Int
  track : FullTrack
deriving DecidableEq

/-- The persisted record (struct `TrimmedTrackInfo` in `main.rs`). -/
structure TrimmedTrackInfo where
  song_name : String
  added_at : Int
  artist_names : List String
  album_name : String
deriving DecidableEq

/-- Normalization `TrimmedTrackInfo::from_saved_track`: project out name,
timestamp, artist names and album name, then sort the artist names. -/
def TrimmedTrackInfo.from_saved_track (saved_track : SavedTrack) : TrimmedTrackInfo :=
  { song_name := saved_track.track.name
    added_at := saved_track.added_at
    artist_names := sortByCmp cmpString (saved_track.track.artists.map SimplifiedArtist.name)
    album_name := saved_track.track.album.name }

/-- The comparator of `liked_songs.sort_by` (`main.rs` lines 75–79):
`added_at` compared first, `song_name` as tie-break. -/
def cmpTrack (a b : TrimmedTrackInfo) : Ordering :=
  (cmpInt a.added_at b.added_at).then (cmpString a.song_name b.song_name)

/-- Non-strict order induced by the sort comparator. -/
def trackLe (a b : TrimmedTrackInfo) : Prop := cmpTrack a b ≠ .gt

/-- Lexicographic order on the `(added_at, song_name)` sort key, stated
directly (strict on the timestamp, tie-break on the name). -/
def keyLe (a b : TrimmedTrackInfo) : Prop :=
  a.added_at < b.added_at ∨ (a.added_at = b.added_at ∧ strLe a.song_name b.song_name)

/-- Pure core of `get_liked_songs_list`: normalize every fetched entry, then
sort by the `(added_at, song_name)` comparator. -/
def get_liked_songs_list (raw : List SavedTrack) : List TrimmedTrackInfo :=
  sortByCmp cmpTrack (raw.map TrimmedTrackInfo.from_saved_track)

/-! ## Serialization (`serde_json::to_string`, `main.rs` lines 136–142)

`serde_json` renders a struct as a compact object with the fields in
declaration order; strings are escaped exactly as in `serde_json`'s escape
table (`\"`, `\\`, `\b`, `\f`, `\n`, `\r`, `\t`, and `\u00xx` with lowercase
hex for the remaining control characters). -/

/-- Lowercase hexadecimal digit, as used by `serde_json` for `\u` escapes. -/
def hexDigit (n : Nat) : Char :=
  Char.ofNat (if n < 10 then 48 + n else 87 + n)

/-- JSON escaping of one character, following `serde_json`'s escape table. -/
def escapeChar (c : Char) : List Char :=
  if c = '"' then ['\\', '"']
  else if c = '\\' then ['\\', '\\']
  else if c = '\x08' then ['\\', 'b']
  else if c = '\x0c' then ['\\', 'f']
  else if c = '\n' then ['\\', 'n']
  else if c = '\r' then ['\\', 'r']
  else if c = '\t' then ['\\', 't']
  else if c.toNat < 32 then
    ['\\', 'u', '0', '0', hexDigit (c.toNat / 16), hexDigit (c.toNat % 16)]
  else [c]

/-- JSON string literal: quote, escaped content, quote. -/
def jstr (s : String) : List Char :=
  '"' :: (s.data.map escapeChar).flatten ++ ['"']

/-- Join a list of chunks with a separator (Rust `Vec::join`). -/
def joinSep (sep : List Char) : List (List Char) → List Char
  | [] => []
  | x :: xs =>
    match xs with
    | [] => x
    | _ :: _ => x ++ sep ++ joinSep sep xs

/-- Decimal digits of a natural number, most significant first, accumulated in
front of `acc`; structural recursion on a fuel argument so that the kernel can
evaluate it (any fuel with `n < 10 ^ fuel` gives the digits). -/
def natDecimalAux : Nat → Nat → List Char → List Char
  | 0, _, acc => acc
  | fuel + 1, n, acc =>
    if n < 10 then Char.ofNat (48 + n) :: acc
    else natDecimalAux fuel (n / 10) (Char.ofNat (48 + n % 10) :: acc)

/-- Decimal rendering of a natural number. -/
def natDecimal (n : Nat) : List Char := natDecimalAux (n + 1) n []

/-- Decimal rendering of an `i64`, minus sign for negative values. -/
def intDecimal (i : Int) : List Char :=
  if i < 0 then '-' :: natDecimal i.natAbs else natDecimal i.toNat

/-- Compact JSON serialization of one record, exactly the line produced by
`serde_json::to_string(&item)`. -/
def serializeTrack (t : TrimmedTrackInfo) : List Char :=
  ['\x7b'] ++ jstr "song_name" ++ [':'] ++ jstr t.song_name
    ++ [','] ++ jstr "added_at" ++ [':'] ++ intDecimal t.added_at
    ++ [','] ++ jstr "artist_names" ++ [':'] ++ ['['] ++ joinSep [','] (t.artist_names.map jstr)
    ++ [']'] ++ [','] ++ jstr "album_name" ++ [':'] ++ jstr t.album_name ++ ['\x7d']

/-- The new snapshot text (`main.rs` lines 136–142): one JSON line per record,
joined with newlines, plus one trailing newline. -/
def serializeAll (ts : List TrimmedTrackInfo) : List Char :=
  joinSep ['\n'] (ts.map serializeTrack) ++ ['\n']

/-! ## The effectful `main` as an event trace (`main.rs` lines 128–147)

`main` is straight-line code where every external call is `.unwrap()`ed: a
failure aborts the process, making every later statement unreachable.  We
embed it as a function from the outcomes of the four external interactions
(credentials parse, snapshot download, OAuth handshake, library paging) to the
list of performed steps, in program order: read credentials (line 132),
download the old snapshot (line 134), authorization handshake and library
fetch inside `get_liked_songs_list` (line 136), print the diff (line 144),
upload the new text (line 146).  `none` for an outcome means that call failed,
truncating the trace at that point. -/

/-- Credentials file structure (`main.rs` lines 31–35). -/
structure CredentialsFile where
  spotify_client_id : String
  spotify_client_secret : String
deriving DecidableEq

/-- One observable step of `main`.  `diffPrint` carries the old and new
snapshot texts handed to `diff_liked_songs`; `snapshotUpload` carries the text
handed to `upload_liked_songs`. -/
inductive Event where
  | credsRead
  | snapshotDownload
  | authHandshake
  | libraryFetch
  | diffPrint (old new : List Char)
  | snapshotUpload (text : List Char)
deriving DecidableEq

/-- Trace of `main`, given the outcomes of the external calls. -/
def runMain (credsRes : Option CredentialsFile) (downloadRes : Option (List Char))
    (authRes : Option Unit) (fetchRes : Option (List SavedTrack)) : List Event :=
  .credsRead ::
    match credsRes with
    | none => []
    | some _ =>
      .snapshotDownload ::
        match downloadRes with
        | none => []
        | some old =>
          .authHandshake ::
            match authRes with
            | none => []
            | some _ =>
              .libraryFetch ::
                match fetchRes with
                | none => []
                | some tracks =>
                  let newText := serializeAll (get_liked_songs_list tracks)
                  [.diffPrint old newText, .snapshotUpload newText]

/-! ## JSON line parser

Modelled from the spec: the source serializes with `serde_json` but defines no
deserializer; the spec's round-trip property ("serializing a sequence of
NormalizedTrack and re-parsing each line as JSON yields records equal to the
originals") needs a JSON reader for the one-object-per-line form the
serializer produces, so we define one here: JSON string literals with the
standard escapes, integers, arrays of strings, and the fixed four-field
object layout emitted by `serializeTrack`. -/

/-- Consume an expected literal prefix, returning the remainder. -/
def expectPrefix : List Char → List Char → Option (List Char)
  | [], s => some s
  | p :: ps, c :: cs => if c = p then expectPrefix ps cs else none
  | _ :: _, [] => none

/-- Value of a decimal digit character. -/
def digitVal (c : Char) : Option Nat :=
  if 48 ≤ c.toNat ∧ c.toNat ≤ 57 then some (c.toNat - 48) else none

/-- Value of a hexadecimal digit character (either case). -/
def hexVal (c : Char) : Option Nat :=
  if 48 ≤ c.toNat ∧ c.toNat ≤ 57 then some (c.toNat - 48)
  else if 97 ≤ c.toNat ∧ c.toNat ≤ 102 then some (c.toNat - 87)
  else if 65 ≤ c.toNat ∧ c.toNat ≤ 70 then some (c.toNat - 55)
  else none

/-- Consume leading decimal digits, folding them onto accumulator `a` and
counting them in `k`; returns (value, digit count, remainder). -/
def takeDigits : List Char → Nat → Nat → Nat × Nat × List Char
  | c :: cs, a, k =>
    match digitVal c with
    | some d => takeDigits cs (a * 10 + d) (k + 1)
    | none => (a, k, c :: cs)
  | [], a, k => (a, k, [])

/-- Parse a nonempty run of decimal digits. -/
def parseNat (s : List Char) : Option (Nat × List Char) :=
  match takeDigits s 0 0 with
  | (v, k, r) => if k = 0 then none else some (v, r)

/-- Parse a JSON integer: optional minus sign, then digits. -/
def parseInt (s : List Char) : Option (Int × List Char) :=
  match s with
  | [] => none
  | c :: rest =>
    if c = '-' then (parseNat rest).map fun p => (-(p.1 : Int), p.2)
    else (parseNat (c :: rest)).map fun p => ((p.1 : Int), p.2)

/-- Parse the body of a JSON string literal after the opening quote: literal
characters and escape sequences up to the closing quote; returns the decoded
content and the remainder after the closing quote. -/
def parseStringBody : List Char → Option (List Char × List Char)
  | [] => none
  | c :: rest =>
    if c = '"' then some ([], rest)
    else if c = '\\' then
      match rest with
      | [] => none
      | e :: rest2 =>
        if e = '"' then (parseStringBody rest2).map fun p => ('"' :: p.1, p.2)
        else if e = '\\' then (parseStringBody rest2).map fun p => ('\\' :: p.1, p.2)
        else if e = '/' then (parseStringBody rest2).map fun p => ('/' :: p.1, p.2)
        else if e = 'b' then (parseStringBody rest2).map fun p => ('\x08' :: p.1, p.2)
        else if e = 'f' then (parseStringBody rest2).map fun p => ('\x0c' :: p.1, p.2)
        else if e = 'n' then (parseStringBody rest2).map fun p => ('\n' :: p.1, p.2)
        else if e = 'r' then (parseStringBody rest2).map fun p => ('\r' :: p.1, p.2)
        else if e = 't' then (parseStringBody rest2).map fun p => ('\t' :: p.1, p.2)
        else if e = 'u' then
          match rest2 with
          | h1 :: h2 :: h3 :: h4 :: rest3 =>
            match hexVal h1, hexVal h2, hexVal h3, hexVal h4 with
            | some v1, some v2, some v3, some v4 =>
              let n := ((v1 * 16 + v2) * 16 + v3) * 16 + v4
              if n < 0xd800 then
                (parseStringBody rest3).map fun p => (Char.ofNat n :: p.1, p.2)
              else none
            | _, _, _, _ => none
          | _ => none
        else none
    else if c.toNat < 32 then none
    else (parseStringBody rest).map fun p => (c :: p.1, p.2)

/-- Parse a JSON string literal including its opening quote. -/
def parseJString (s : List Char) : Option (String × List Char) :=
  match s with
  | [] => none
  | c :: rest =>
    if c = '"' then (parseStringBody rest).map fun p => (String.mk p.1, p.2) else none

/-- Parse one-or-more comma-separated JSON strings followed by `]`; fueled,
any fuel at least the number of elements suffices. -/
def parseElems : Nat → List Char → Option (List String × List Char)
  | 0, _ => none
  | fuel + 1, s =>
    match parseJString s with
    | none => none
    | some (str, r) =>
      match r with
      | [] => none
      | c :: r2 =>
        if c = ',' then
          match parseElems fuel r2 with
          | none => none
          | some (rest, r3) => some (str :: rest, r3)
        else if c = ']' then some ([str], r2)
        else none

/-- Parse a JSON array of strings. -/
def parseStringArray (s : List Char) : Option (List String × List Char) :=
  match s with
  | [] => none
  | c :: r =>
    if c = '[' then
      match r with
      | [] => none
      | c2 :: r2 => if c2 = ']' then some (([] : List String), r2) else parseElems r.length r
    else none

/-- Parse one serialized record line: the fixed four-field object layout the
serializer emits, with nothing left over. -/
def parseTrack (s : List Char) : Option TrimmedTrackInfo :=
  match expectPrefix ('\x7b' :: jstr "song_name" ++ [':']) s with
  | none => none
  | some s1 =>
    match parseJString s1 with
    | none => none
    | some (song, s2) =>
      match expectPrefix (',' :: jstr "added_at" ++ [':']) s2 with
      | none => none
      | some s3 =>
        match parseInt s3 with
        | none => none
        | some (ts, s4) =>
          match expectPrefix (',' :: jstr "artist_names" ++ [':']) s4 with
          | none => none
          | some s5 =>
            match parseStringArray s5 with
            | none => none
            | some (names, s6) =>
              match expectPrefix (',' :: jstr "album_name" ++ [':']) s6 with
              | none => none
              | some s7 =>
                match parseJString s7 with
                | none => none
                | some (album, s8) =>
                  if s8 = ['\x7d'] then some ⟨song, ts, names, album⟩ else none

/-! ## Small unfolding equations for `joinSep` -/

theorem joinSep_nil (sep : List Char) : joinSep sep [] = [] := rfl

theorem joinSep_single (sep : List Char) (x : List Char) : joinSep sep [x] = x := rfl

theorem joinSep_cons_cons (sep x y : List Char) (ys : List (List Char)) :
    joinSep sep (x :: y :: ys) = x ++ sep ++ joinSep sep (y :: ys) := rfl

/-! ## Order-theoretic facts about the comparators -/

theorem cmpChar_eq_lt {a b : Char} : cmpChar a b = .lt ↔ a < b := by
  unfold cmpChar; split_ifs with h1 h2 <;> simp_all

theorem cmpChar_eq_gt {a b : Char} : cmpChar a b = .gt ↔ b < a := by
  unfold cmpChar; split_ifs with h1 h2 <;> simp_all
  exact le_of_lt h1

theorem cmpChar_eq_eq {a b : Char} : cmpChar a b = .eq ↔ a = b := by
  unfold cmpChar; split_ifs with h1 h2 <;> simp_all
  · exact ne_of_lt h1
  · exact ne_of_gt h2
  · exact le_antisymm h2 h1

theorem cmpInt_eq_lt {a b : Int} : cmpInt a b = .lt ↔ a < b := by
  unfold cmpInt; split_ifs <;> simp_all

theorem cmpInt_eq_gt {a b : Int} : cmpInt a b = .gt ↔ b < a := by
  unfold cmpInt; split_ifs <;> simp_all; omega

theorem cmpInt_eq_eq {a b : Int} : cmpInt a b = .eq ↔ a = b := by
  unfold cmpInt; split_ifs <;> simp_all <;> omega

theorem cmpCharList_eq_eq : ∀ {xs ys : List Char}, cmpCharList xs ys = .eq ↔ xs = ys
  | [], [] => by simp [cmpCharList]
  | [], _ :: _ => by simp [cmpCharList]
  | _ :: _, [] => by simp [cmpCharList]
  | x :: xs, y :: ys => by
    simp only [cmpCharList]
    rcases h : cmpChar x y with _ | _ | _
    · simp [Ordering.then, (cmpChar_eq_lt.mp h).ne]
    · have hx : x = y := cmpChar_eq_eq.mp h
      simp [Ordering.then, hx, cmpCharList_eq_eq]
    · simp [Ordering.then, (cmpChar_eq_gt.mp h).ne']

theorem cmpCharList_gt_iff_lt : ∀ {xs ys : List Char},
    cmpCharList xs ys = .gt ↔ cmpCharList ys xs = .lt
  | [], [] => by simp [cmpCharList]
  | [], _ :: _ => by simp [cmpCharList]
  | _ :: _, [] => by simp [cmpCharList]
  | x :: xs, y :: ys => by
    simp only [cmpCharList]
    rcases h : cmpChar x y with _ | _ | _
    · have h' : cmpChar y x = .gt := cmpChar_eq_gt.mpr (cmpChar_eq_lt.mp h)
      simp [Ordering.then, h']
    · have hx : x = y := cmpChar_eq_eq.mp h
      have h' : cmpChar y x = .eq := cmpChar_eq_eq.mpr hx.symm
      simp [Ordering.then, h', cmpCharList_gt_iff_lt]
    · have h' : cmpChar y x = .lt := cmpChar_eq_lt.mpr (cmpChar_eq_gt.mp h)
      simp [Ordering.then, h']

theorem cmpCharList_le_trans : ∀ (xs ys zs : List Char),
    cmpCharList xs ys ≠ .gt → cmpCharList ys zs ≠ .gt → cmpCharList xs zs ≠ .gt := by
  intro xs
  induction xs with
  | nil => intro ys zs _ _; cases zs <;> simp [cmpCharList]
  | cons x xs ih =>
    intro ys zs h1 h2
    cases ys with
    | nil => exact absurd rfl h1
    | cons y ys =>
      cases zs with
      | nil => exact absurd rfl h2
      | cons z zs =>
        simp only [cmpCharList] at h1 h2 ⊢
        rcases hxy : cmpChar x y with _ | _ | _ <;> rw [hxy] at h1 <;>
          rcases hyz : cmpChar y z with _ | _ | _ <;> rw [hyz] at h2
        · have : cmpChar x z = .lt :=
            cmpChar_eq_lt.mpr (lt_trans (cmpChar_eq_lt.mp hxy) (cmpChar_eq_lt.mp hyz))
          simp [Ordering.then, this]
        · have : cmpChar x z = .lt := by
            rw [← cmpChar_eq_eq.mp hyz]; exact hxy
          simp [Ordering.then, this]
        · exact absurd rfl h2
        · have : cmpChar x z = .lt := by
            rw [cmpChar_eq_eq.mp hxy]; exact hyz
          simp [Ordering.then, this]
        · have hxz : cmpChar x z = .eq := by
            rw [cmpChar_eq_eq.mp hxy]; exact hyz
          simp only [Ordering.then] at h1 h2 ⊢
          rw [hxz]
          exact ih ys zs h1 h2
        · exact absurd rfl h2
        · exact absurd rfl h1
        · exact absurd rfl h1
        · exact absurd rfl h1

theorem string_eq_of_data_eq {a b : String} (h : a.data = b.data) : a = b := by
  cases a; cases b; exact congrArg String.mk h

theorem cmpString_eq_eq {a b : String} : cmpString a b = .eq ↔ a = b := by
  unfold cmpString
  rw [cmpCharList_eq_eq]
  exact ⟨string_eq_of_data_eq, fun h => h ▸ rfl⟩

theorem cmpString_gt_iff_lt {a b : String} : cmpString a b = .gt ↔ cmpString b a = .lt :=
  cmpCharList_gt_iff_lt

theorem strLe_trans {a b c : String} (h1 : strLe a b) (h2 : strLe b c) : strLe a c :=
  cmpCharList_le_trans _ _ _ h1 h2

theorem strLe_total (a b : String) : strLe a b ∨ strLe b a := by
  by_cases h : cmpString a b = .gt
  · right
    intro hba
    rw [cmpString_gt_iff_lt] at h
    rw [h] at hba
    exact Ordering.noConfusion hba
  · left; exact h

theorem strLe_antisymm {a b : String} (h1 : strLe a b) (h2 : strLe b a) : a = b := by
  rcases h : cmpString a b with _ | _ | _
  · rw [← cmpString_gt_iff_lt] at h; exact absurd h h2
  · exact cmpString_eq_eq.mp h
  · exact absurd h h1

theorem trackLe_iff_keyLe {a b : TrimmedTrackInfo} : trackLe a b ↔ keyLe a b := by
  unfold trackLe cmpTrack keyLe
  rcases h : cmpInt a.added_at b.added_at with _ | _ | _
  · simp [h, Ordering.then, cmpInt_eq_lt.mp h]
  · have he := cmpInt_eq_eq.mp h
    simp [h, Ordering.then, he, strLe]
  · have hg := cmpInt_eq_gt.mp h
    simp only [Ordering.then]
    constructor
    · intro h'; exact absurd rfl h'
    · rintro (hlt | ⟨heq, _⟩) <;> exfalso <;> omega

theorem trackLe_total (a b : TrimmedTrackInfo) : trackLe a b ∨ trackLe b a := by
  rw [trackLe_iff_keyLe, trackLe_iff_keyLe]
  unfold keyLe
  rcases lt_trichotomy a.added_at b.added_at with h | h | h
  · exact Or.inl (Or.inl h)
  · rcases strLe_total a.song_name b.song_name with hs | hs
    · exact Or.inl (Or.inr ⟨h, hs⟩)
    · exact Or.inr (Or.inr ⟨h.symm, hs⟩)
  · exact Or.inr (Or.inl h)

theorem trackLe_gt_asymm (a b : TrimmedTrackInfo) (h : cmpTrack a b = .gt) :
    cmpTrack b a ≠ .gt := by
  have : trackLe a b ∨ trackLe b a := trackLe_total a b
  rcases this with h' | h'
  · exact absurd h h'
  · intro hba
    rcases trackLe_total b a with h'' | h''
    · exact absurd hba h''
    · exact absurd h h''

theorem trackLe_trans {a b c : TrimmedTrackInfo}
    (h1 : trackLe a b) (h2 : trackLe b c) : trackLe a c := by
  rw [trackLe_iff_keyLe] at h1 h2 ⊢
  unfold keyLe at h1 h2 ⊢
  rcases h1 with h1 | ⟨e1, s1⟩ <;> rcases h2 with h2 | ⟨e2, s2⟩
  · exact Or.inl (by omega)
  · exact Or.inl (by omega)
  · exact Or.inl (by omega)
  · exact Or.inr ⟨by omega, strLe_trans s1 s2⟩

theorem trackLe_antisymm_key {a b : TrimmedTrackInfo}
    (h1 : trackLe a b) (h2 : trackLe b a) :
    a.added_at = b.added_at ∧ a.song_name = b.song_name := by
  rw [trackLe_iff_keyLe] at h1 h2
  unfold keyLe at h1 h2
  rcases h1 with h1 | ⟨e1, s1⟩ <;> rcases h2 with h2 | ⟨e2, s2⟩
  · exfalso; omega
  · exfalso; omega
  · exfalso; omega
  · exact ⟨e1, strLe_antisymm s1 s2⟩

/-! ## Facts about the stable insertion sort -/

theorem insertByCmp_perm (cmp : α → α → Ordering) (x : α) :
    ∀ l : List α, (insertByCmp cmp x l).Perm (x :: l)
  | [] => List.Perm.refl _
  | y :: ys => by
    rw [insertByCmp]
    by_cases h : cmp x y = .gt
    · rw [if_pos h]
      exact ((insertByCmp_perm cmp x ys).cons y).trans (List.Perm.swap x y ys)
    · rw [if_neg h]

theorem sortByCmp_perm (cmp : α → α → Ordering) : ∀ l : List α, (sortByCmp cmp l).Perm l
  | [] => List.Perm.refl _
  | a :: l => (insertByCmp_perm cmp a _).trans ((sortByCmp_perm cmp l).cons a)

theorem chain'_insertByCmp (cmp : α → α → Ordering)
    (htot : ∀ a b, cmp a b = .gt → cmp b a ≠ .gt) (x : α) :
    ∀ {l : List α}, l.Chain' (fun a b => cmp a b ≠ .gt) →
      (insertByCmp cmp x l).Chain' (fun a b => cmp a b ≠ .gt) := by
  intro l
  induction l with
  | nil => intro _; simp [insertByCmp]
  | cons y ys ih =>
    intro h
    rw [insertByCmp]
    by_cases hxy : cmp x y = .gt
    · rw [if_pos hxy]
      rcases ys with _ | ⟨z, zs⟩
      · simp [insertByCmp, htot _ _ hxy]
      · rw [List.chain'_cons] at h
        have h2 := ih h.2
        rw [insertByCmp] at h2 ⊢
        by_cases hxz : cmp x z = .gt
        · rw [if_pos hxz] at h2 ⊢
          exact List.chain'_cons.mpr ⟨h.1, h2⟩
        · rw [if_neg hxz] at h2 ⊢
          exact List.chain'_cons.mpr ⟨htot _ _ hxy, h2⟩
    · rw [if_neg hxy]
      exact List.chain'_cons.mpr ⟨hxy, h⟩

theorem chain'_sortByCmp (cmp : α → α → Ordering)
    (htot : ∀ a b, cmp a b = .gt → cmp b a ≠ .gt) :
    ∀ l : List α, (sortByCmp cmp l).Chain' (fun a b => cmp a b ≠ .gt)
  | [] => List.chain'_nil
  | a :: l => chain'_insertByCmp cmp htot a (chain'_sortByCmp cmp htot l)

/-- Two sorted lists that are permutations of each other are equal, as long as
the order is antisymmetric on the elements involved. -/
theorem eq_of_perm_of_chain' (cmp : α → α → Ordering)
    (htrans : ∀ a b c, cmp a b ≠ .gt → cmp b c ≠ .gt → cmp a c ≠ .gt) :
    ∀ (l₁ l₂ : List α), l₁.Perm l₂ →
      l₁.Chain' (fun a b => cmp a b ≠ .gt) → l₂.Chain' (fun a b => cmp a b ≠ .gt) →
      (∀ a ∈ l₁, ∀ b ∈ l₁, cmp a b ≠ .gt → cmp b a ≠ .gt → a = b) → l₁ = l₂ := by
  intro l₁
  induction l₁ with
  | nil =>
    intro l₂ hp _ _ _
    exact (List.Perm.eq_nil hp.symm).symm
  | cons a t₁ ih =>
    intro l₂ hp h₁ h₂ hanti
    haveI : IsTrans α (fun a b => cmp a b ≠ .gt) := ⟨htrans⟩
    cases l₂ with
    | nil => exact List.noConfusion hp.eq_nil
    | cons b t₂ =>
      have hp₁ := List.chain'_iff_pairwise.mp h₁
      have hp₂ := List.chain'_iff_pairwise.mp h₂
      have hab : a = b := by
        by_cases heq : a = b
        · exact heq
        · have hbmem : b ∈ t₁ := by
            have hb : b ∈ a :: t₁ := hp.mem_iff.mpr (List.mem_cons_self b t₂)
            rcases List.mem_cons.mp hb with h | h
            · exact absurd h.symm heq
            · exact h
          have hamem : a ∈ t₂ := by
            have ha : a ∈ b :: t₂ := hp.mem_iff.mp (List.mem_cons_self a t₁)
            rcases List.mem_cons.mp ha with h | h
            · exact absurd h heq
            · exact h
          have h1ab : cmp a b ≠ .gt := (List.pairwise_cons.mp hp₁).1 b hbmem
          have h2ba : cmp b a ≠ .gt := (List.pairwise_cons.mp hp₂).1 a hamem
          exact hanti a (List.mem_cons_self a t₁) b (List.mem_cons.mpr (Or.inr hbmem))
            h1ab h2ba
      subst hab
      have hanti' : ∀ x ∈ t₁, ∀ y ∈ t₁, cmp x y ≠ .gt → cmp y x ≠ .gt → x = y :=
        fun x hx y hy => hanti x (List.mem_cons.mpr (Or.inr hx)) y (List.mem_cons.mpr (Or.inr hy))
      exact congrArg (List.cons a) (ih t₂ hp.cons_inv h₁.tail h₂.tail hanti')

/-! ## No serialized record contains a raw newline -/

theorem hexDigit_ne_newline {n : Nat} (h : n < 16) : hexDigit n ≠ '\n' := by
  interval_cases n <;> decide

theorem newline_notin_escapeChar (c : Char) : '\n' ∉ escapeChar c := by
  unfold escapeChar
  split_ifs with h1 h2 h3 h4 h5 h6 h7 h8
  · decide
  · decide
  · decide
  · decide
  · decide
  · decide
  · decide
  · intro hmem
    simp only [List.mem_cons, List.not_mem_nil, or_false] at hmem
    rcases hmem with h | h | h | h | h | h
    · exact absurd h (by decide)
    · exact absurd h (by decide)
    · exact absurd h (by decide)
    · exact absurd h (by decide)
    · exact absurd h.symm (hexDigit_ne_newline (by omega))
    · exact absurd h.symm (hexDigit_ne_newline (by omega))
  · intro hmem
    simp only [List.mem_singleton] at hmem
    exact h5 hmem.symm

theorem newline_notin_jstr (s : String) : '\n' ∉ jstr s := by
  unfold jstr
  intro hmem
  simp only [List.cons_append, List.mem_cons, List.mem_append, List.mem_singleton] at hmem
  rcases hmem with h | h | h
  · exact absurd h (by decide)
  · rw [List.mem_flatten] at h
    obtain ⟨l, hl, hc⟩ := h
    rw [List.mem_map] at hl
    obtain ⟨c, _, rfl⟩ := hl
    exact newline_notin_escapeChar c hc
  · exact absurd h (by decide)

theorem natDecimalAux_mem : ∀ (fuel n : Nat) (acc : List Char) (c : Char),
    c ∈ natDecimalAux fuel n acc → c ∈ acc ∨ ∃ d, d < 10 ∧ c = Char.ofNat (48 + d) := by
  intro fuel
  induction fuel with
  | zero => intro n acc c h; exact Or.inl h
  | succ fuel ih =>
    intro n acc c h
    rw [natDecimalAux] at h
    split_ifs at h with h10
    · rcases List.mem_cons.mp h with h | h
      · exact Or.inr ⟨n, h10, h⟩
      · exact Or.inl h
    · rcases ih (n / 10) _ c h with h | h
      · rcases List.mem_cons.mp h with h | h
        · exact Or.inr ⟨n % 10, by omega, h⟩
        · exact Or.inl h
      · exact Or.inr h

theorem digitChar_ne_newline {d : Nat} (h : d < 10) : Char.ofNat (48 + d) ≠ '\n' := by
  interval_cases d <;> decide

theorem newline_notin_intDecimal (i : Int) : '\n' ∉ intDecimal i := by
  unfold intDecimal
  split_ifs with h
  · intro hmem
    rcases List.mem_cons.mp hmem with h' | h'
    · exact absurd h' (by decide)
    · rcases natDecimalAux_mem _ _ _ _ h' with h' | ⟨d, hd, h'⟩
      · simp at h'
      · exact digitChar_ne_newline hd h'.symm
  · intro hmem
    rcases natDecimalAux_mem _ _ _ _ hmem with h' | ⟨d, hd, h'⟩
    · simp at h'
    · exact digitChar_ne_newline hd h'.symm

theorem newline_notin_joinComma (ls : List String) : '\n' ∉ joinSep [','] (ls.map jstr) := by
  induction ls with
  | nil => simp [joinSep]
  | cons s ls ih =>
    cases ls with
    | nil =>
      simpa [joinSep] using newline_notin_jstr s
    | cons t ts =>
      intro hmem
      rw [List.map_cons, List.map_cons, joinSep_cons_cons] at hmem
      rcases List.mem_append.mp hmem with h | h
      · rcases List.mem_append.mp h with h | h
        · exact newline_notin_jstr s h
        · exact absurd h (by decide)
      · exact ih h

theorem newline_notin_serializeTrack (t : TrimmedTrackInfo) : '\n' ∉ serializeTrack t := by
  unfold serializeTrack
  intro hmem
  simp only [List.mem_append, List.mem_singleton, or_assoc] at hmem
  rcases hmem with h | h | h | h | h | h | h | h | h | h | h | h | h | h | h | h | h | h | h
  · exact absurd h (by decide)
  · exact newline_notin_jstr _ h
  · exact absurd h (by decide)
  · exact newline_notin_jstr _ h
  · exact absurd h (by decide)
  · exact newline_notin_jstr _ h
  · exact absurd h (by decide)
  · exact newline_notin_intDecimal _ h
  · exact absurd h (by decide)
  · exact newline_notin_jstr _ h
  · exact absurd h (by decide)
  · exact absurd h (by decide)
  · exact newline_notin_joinComma _ h
  · exact absurd h (by decide)
  · exact absurd h (by decide)
  · exact newline_notin_jstr _ h
  · exact absurd h (by decide)
  · exact newline_notin_jstr _ h
  · exact absurd h (by decide)

theorem count_joinSep_newline : ∀ ls : List (List Char), ls ≠ [] →
    (∀ x ∈ ls, '\n' ∉ x) →
    (joinSep ['\n'] ls).count '\n' = ls.length - 1 := by
  intro ls
  induction ls with
  | nil => intro h; exact absurd rfl h
  | cons x xs ih =>
    intro _ hnone
    have hx : List.count '\n' x = 0 :=
      List.count_eq_zero.mpr (hnone x (List.mem_cons_self x _))
    cases xs with
    | nil => simpa [joinSep_single] using hx
    | cons y ys =>
      rw [joinSep_cons_cons, List.count_append, List.count_append, hx,
        ih (by simp) (fun z hz => hnone z (List.mem_cons.mpr (Or.inr hz)))]
      simp
      omega

theorem cmpString_gt_asymm (a b : String) (h : cmpString a b = .gt) :
    cmpString b a ≠ .gt := by
  rw [cmpString_gt_iff_lt] at h
  rw [h]
  exact fun hc => Ordering.noConfusion hc

/-! ## Claims -/

/-- C1: the snapshot's record sequence is sorted primarily by `added_at`
ascending with `song_name` ascending as tie-break: every record's
`(added_at, song_name)` key is less than or equal to its successor's, and two
tracks both added at timestamp 100 named "Zeta" and "Alpha" serialize with the
"Alpha" line before the "Zeta" line. -/
theorem C1_sorted_by_added_at_then_name :
    (∀ l : List TrimmedTrackInfo, (sortByCmp cmpTrack l).Chain' keyLe) ∧
    serializeAll (sortByCmp cmpTrack
        [⟨"Zeta", 100, [], "al"⟩, ⟨"Alpha", 100, [], "al"⟩]) =
      serializeTrack ⟨"Alpha", 100, [], "al"⟩ ++
        '\n' :: serializeTrack ⟨"Zeta", 100, [], "al"⟩ ++ ['\n'] := by
  constructor
  · intro l
    exact List.Chain'.imp (fun a b h => trackLe_iff_keyLe.mp h)
      (chain'_sortByCmp cmpTrack trackLe_gt_asymm l)
  · decide

/-- C2 as stated is false: two normalized tracks that agree on `added_at` and
`song_name` but differ in `album_name` keep their input order under the stable
sort, so the two orderings of the same multiset serialize to different
bytes. -/
theorem C2_counterexample :
    ([⟨"A", 0, [], "X"⟩, ⟨"A", 0, [], "Y"⟩] : List TrimmedTrackInfo).Perm
        [⟨"A", 0, [], "Y"⟩, ⟨"A", 0, [], "X"⟩] ∧
      serializeAll (sortByCmp cmpTrack [⟨"A", 0, [], "X"⟩, ⟨"A", 0, [], "Y"⟩]) ≠
        serializeAll (sortByCmp cmpTrack [⟨"A", 0, [], "Y"⟩, ⟨"A", 0, [], "X"⟩]) :=
  ⟨List.Perm.swap _ _ _, by decide⟩

/-- C2 amended: for permutations of the same list of normalized tracks,
sorting then serializing is byte-identical provided no two distinct records
share the `(added_at, song_name)` sort key. -/
theorem C2_amended_order_independent (l₁ l₂ : List TrimmedTrackInfo) (hp : l₁.Perm l₂)
    (hinj : ∀ a ∈ l₁, ∀ b ∈ l₁,
      a.added_at = b.added_at → a.song_name = b.song_name → a = b) :
    serializeAll (sortByCmp cmpTrack l₁) = serializeAll (sortByCmp cmpTrack l₂) := by
  have hsort : sortByCmp cmpTrack l₁ = sortByCmp cmpTrack l₂ := by
    apply eq_of_perm_of_chain' cmpTrack (fun a b c h1 h2 => trackLe_trans h1 h2)
    · exact (sortByCmp_perm cmpTrack l₁).trans (hp.trans (sortByCmp_perm cmpTrack l₂).symm)
    · exact chain'_sortByCmp cmpTrack trackLe_gt_asymm l₁
    · exact chain'_sortByCmp cmpTrack trackLe_gt_asymm l₂
    · intro a ha b hb h1 h2
      have hk := trackLe_antisymm_key h1 h2
      exact hinj a ((sortByCmp_perm cmpTrack l₁).mem_iff.mp ha)
        b ((sortByCmp_perm cmpTrack l₁).mem_iff.mp hb) hk.1 hk.2
  rw [hsort]

/-- Witness for the amended C2 at two concrete permutations with distinct
keys. -/
theorem C2_amended_order_independent_witness :
    serializeAll (sortByCmp cmpTrack
        [⟨"A", 0, [], "X"⟩, ⟨"B", 1, [], "Y"⟩]) =
      serializeAll (sortByCmp cmpTrack [⟨"B", 1, [], "Y"⟩, ⟨"A", 0, [], "X"⟩]) :=
  C2_amended_order_independent _ _ (List.Perm.swap _ _ _) (by decide)

/-- C3: the normalizer always returns `artist_names` sorted ascending (and it
is a permutation of the artists' names as fetched, in whatever order). -/
theorem C3_artist_names_sorted (s : SavedTrack) :
    ((TrimmedTrackInfo.from_saved_track s).artist_names).Chain' strLe ∧
    ((TrimmedTrackInfo.from_saved_track s).artist_names).Perm
      (s.track.artists.map SimplifiedArtist.name) :=
  ⟨chain'_sortByCmp cmpString cmpString_gt_asymm _, sortByCmp_perm cmpString _⟩

/-- C4: the serializer emits one compact JSON object per record, each on its
own line joined by newlines plus one trailing newline: a non-empty list of
`n` tracks serializes to text containing exactly `n` newline characters and
ending with a newline. -/
theorem C4_one_line_per_record (ts : List TrimmedTrackInfo) (h : ts ≠ []) :
    (serializeAll ts).count '\n' = ts.length ∧
    (serializeAll ts).getLast? = some '\n' := by
  have hlen : 0 < ts.length := List.length_pos.mpr h
  constructor
  · unfold serializeAll
    rw [List.count_append,
      count_joinSep_newline (ts.map serializeTrack) (by simpa using h)
        (fun x hx => by
          rw [List.mem_map] at hx
          obtain ⟨t, _, rfl⟩ := hx
          exact newline_notin_serializeTrack t),
      List.length_map]
    have h1 : List.count '\n' ['\n'] = 1 := by decide
    rw [h1]
    omega
  · exact List.getLast?_concat _

/-- Witness for C4 at a concrete one-element list. -/
theorem C4_one_line_per_record_witness :
    ([⟨"A", 0, [], "B"⟩] : List TrimmedTrackInfo) ≠ [] ∧
      ((serializeAll [⟨"A", 0, [], "B"⟩]).count '\n' =
          ([⟨"A", 0, [], "B"⟩] : List TrimmedTrackInfo).length ∧
        (serializeAll [⟨"A", 0, [], "B"⟩]).getLast? = some '\n') :=
  ⟨by decide, C4_one_line_per_record _ (by decide)⟩

/-- C5 as stated is false: in a fully successful run the snapshot download
occurs at index 1 of the trace and the library fetch at index 3, so the fetch
does not precede the download. -/
theorem C5_counterexample :
    ¬ ((runMain (some ⟨"id", "secret"⟩) (some ['\n']) (some ()) (some [])).indexOf
          Event.libraryFetch <
        (runMain (some ⟨"id", "secret"⟩) (some ['\n']) (some ()) (some [])).indexOf
          Event.snapshotDownload) := by
  decide

/-- C5 amended: the snapshot download and the library fetch run sequentially,
with the download completing first: whenever the fetch appears in a run's
trace, the download appears before it. -/
theorem C5_amended_download_then_fetch (c : Option CredentialsFile)
    (d : Option (List Char)) (a : Option Unit) (f : Option (List SavedTrack))
    (h : Event.libraryFetch ∈ runMain c d a f) :
    [Event.snapshotDownload, Event.libraryFetch].Sublist (runMain c d a f) := by
  cases c with
  | none => simp [runMain] at h
  | some cf =>
    cases d with
    | none => simp [runMain] at h
    | some old =>
      cases a with
      | none => simp [runMain] at h
      | some u =>
        cases f with
        | none => exact ((((List.nil_sublist _).cons₂ _).cons _).cons₂ _).cons _
        | some tracks => exact ((((List.nil_sublist _).cons₂ _).cons _).cons₂ _).cons _

/-- Witness for the amended C5 at a concrete fully-successful run. -/
theorem C5_amended_download_then_fetch_witness :
    [Event.snapshotDownload, Event.libraryFetch].Sublist
      (runMain (some ⟨"id", "secret"⟩) (some []) (some ()) (some [])) :=
  C5_amended_download_then_fetch _ _ _ _ (by decide)

/-- C6: when the snapshot download fails, the run performs no authorization
handshake, no library fetch, no diff and no upload — every later step of
`main` is unreachable. -/
theorem C6_download_failure_aborts (c : Option CredentialsFile) (a : Option Unit)
    (f : Option (List SavedTrack)) :
    Event.authHandshake ∉ runMain c none a f ∧
    Event.libraryFetch ∉ runMain c none a f ∧
    (∀ old new, Event.diffPrint old new ∉ runMain c none a f) ∧
    (∀ text, Event.snapshotUpload text ∉ runMain c none a f) := by
  cases c <;> simp [runMain]

/-- C7: the diff does not affect control flow: whenever the diff-print event
occurs at some trace position, the upload of the same new snapshot text occurs
at a strictly later position, with no condition on the old and new texts (in
particular also when they are identical). -/
theorem C7_upload_after_diff (c : Option CredentialsFile) (d : Option (List Char))
    (a : Option Unit) (f : Option (List SavedTrack)) (old new : List Char) (i : Nat)
    (h : (runMain c d a f)[i]? = some (Event.diffPrint old new)) :
    ∃ j, i < j ∧ (runMain c d a f)[j]? = some (Event.snapshotUpload new) := by
  cases c with
  | none => rcases i with _ | i <;> simp [runMain] at h
  | some cf =>
    cases d with
    | none => rcases i with _ | _ | i <;> simp [runMain] at h
    | some old' =>
      cases a with
      | none => rcases i with _ | _ | _ | i <;> simp [runMain] at h
      | some u =>
        cases f with
        | none => rcases i with _ | _ | _ | _ | i <;> simp [runMain] at h
        | some tracks =>
          rcases i with _ | _ | _ | _ | _ | _ | i <;> simp [runMain] at h
          exact ⟨5, by omega, by simp [runMain, h.1, h.2]⟩

/-- Witness for C7 at a concrete run whose old and new texts are identical
(empty diff). -/
theorem C7_upload_after_diff_witness :
    ∃ j, 4 < j ∧
      (runMain (some ⟨"id", "secret"⟩) (some ['\n']) (some ()) (some []))[j]? =
        some (Event.snapshotUpload ['\n']) :=
  C7_upload_after_diff _ _ _ _ ['\n'] ['\n'] 4 (by decide)

/-- C8: when the credentials parse fails, no snapshot download, authorization
handshake, library fetch, diff or upload is attempted. -/
theorem C8_credentials_failure_aborts (d : Option (List Char)) (a : Option Unit)
    (f : Option (List SavedTrack)) :
    Event.snapshotDownload ∉ runMain none d a f ∧
    Event.authHandshake ∉ runMain none d a f ∧
    Event.libraryFetch ∉ runMain none d a f ∧
    (∀ old new, Event.diffPrint old new ∉ runMain none d a f) ∧
    (∀ text, Event.snapshotUpload text ∉ runMain none d a f) := by
  simp [runMain]

/-- C10: with an empty fetched library the new snapshot text is exactly one
newline character, and that one-newline text is what is handed to the diff
and to the upload. -/
theorem C10_empty_library_snapshot (cf : CredentialsFile) (old : List Char) :
    serializeAll (get_liked_songs_list []) = ['\n'] ∧
    runMain (some cf) (some old) (some ()) (some []) =
      [Event.credsRead, Event.snapshotDownload, Event.authHandshake, Event.libraryFetch,
        Event.diffPrint old ['\n'], Event.snapshotUpload ['\n']] :=
  ⟨rfl, rfl⟩

/-! ## Round-trip of the serialized line through the JSON parser -/


theorem psb_quote (s : List Char) : parseStringBody ('"' :: s) = some ([], s) := by
  simp [parseStringBody.eq_def]

theorem psb_bs_quote (s : List Char) :
    parseStringBody ('\\' :: '"' :: s) =
      (parseStringBody s).map fun p => ('"' :: p.1, p.2) := by
  rw [parseStringBody.eq_def]; simp

theorem psb_bs_bs (s : List Char) :
    parseStringBody ('\\' :: '\\' :: s) =
      (parseStringBody s).map fun p => ('\\' :: p.1, p.2) := by
  rw [parseStringBody.eq_def]; simp

theorem psb_bs_b (s : List Char) :
    parseStringBody ('\\' :: 'b' :: s) =
      (parseStringBody s).map fun p => ('\x08' :: p.1, p.2) := by
  rw [parseStringBody.eq_def]; simp

theorem psb_bs_f (s : List Char) :
    parseStringBody ('\\' :: 'f' :: s) =
      (parseStringBody s).map fun p => ('\x0c' :: p.1, p.2) := by
  rw [parseStringBody.eq_def]; simp

theorem psb_bs_n (s : List Char) :
    parseStringBody ('\\' :: 'n' :: s) =
      (parseStringBody s).map fun p => ('\n' :: p.1, p.2) := by
  rw [parseStringBody.eq_def]; simp

theorem psb_bs_r (s : List Char) :
    parseStringBody ('\\' :: 'r' :: s) =
      (parseStringBody s).map fun p => ('\r' :: p.1, p.2) := by
  rw [parseStringBody.eq_def]; simp

theorem psb_bs_t (s : List Char) :
    parseStringBody ('\\' :: 't' :: s) =
      (parseStringBody s).map fun p => ('\t' :: p.1, p.2) := by
  rw [parseStringBody.eq_def]; simp

theorem psb_u (d1 d2 : Char) (v1 v2 : Nat) (hv1 : hexVal d1 = some v1)
    (hv2 : hexVal d2 = some v2) (hlt : v1 * 16 + v2 < 0xd800) (s : List Char) :
    parseStringBody ('\\' :: 'u' :: '0' :: '0' :: d1 :: d2 :: s) =
      (parseStringBody s).map fun p => (Char.ofNat (v1 * 16 + v2) :: p.1, p.2) := by
  have h0 : hexVal '0' = some 0 := by decide
  rw [parseStringBody.eq_def]
  simp [h0, hv1, hv2, hlt]

theorem psb_literal (c : Char) (h1 : ¬ c = '"') (h2 : ¬ c = '\\') (h3 : ¬ c.toNat < 32)
    (s : List Char) :
    parseStringBody (c :: s) = (parseStringBody s).map fun p => (c :: p.1, p.2) := by
  rw [parseStringBody.eq_def]
  simp [h1, h2, h3]

theorem hexVal_hexDigit {k : Nat} (h : k < 16) : hexVal (hexDigit k) = some k := by
  interval_cases k <;> decide

theorem parseStringBody_flatten : ∀ (cs : List Char) (rest : List Char),
    parseStringBody ((cs.map escapeChar).flatten ++ '"' :: rest) = some (cs, rest) := by
  intro cs
  induction cs with
  | nil => intro rest; simpa using psb_quote rest
  | cons c cs ih =>
    intro rest
    rw [List.map_cons, List.flatten_cons, List.append_assoc]
    rw [escapeChar]
    split_ifs with h1 h2 h3 h4 h5 h6 h7 h8
    · subst h1; simp only [List.cons_append, List.nil_append, psb_bs_quote, ih]; rfl
    · subst h2; simp only [List.cons_append, List.nil_append, psb_bs_bs, ih]; rfl
    · subst h3; simp only [List.cons_append, List.nil_append, psb_bs_b, ih]; rfl
    · subst h4; simp only [List.cons_append, List.nil_append, psb_bs_f, ih]; rfl
    · subst h5; simp only [List.cons_append, List.nil_append, psb_bs_n, ih]; rfl
    · subst h6; simp only [List.cons_append, List.nil_append, psb_bs_r, ih]; rfl
    · subst h7; simp only [List.cons_append, List.nil_append, psb_bs_t, ih]; rfl
    · simp only [List.cons_append, List.nil_append]
      rw [psb_u (hexDigit (c.toNat / 16)) (hexDigit (c.toNat % 16)) (c.toNat / 16) (c.toNat % 16)
        (hexVal_hexDigit (by omega)) (hexVal_hexDigit (by omega)) (by omega), ih]
      have hc : c.toNat / 16 * 16 + c.toNat % 16 = c.toNat := by omega
      rw [hc, Char.ofNat_toNat]
      rfl
    · simp only [List.cons_append, List.nil_append]
      rw [psb_literal c h1 h2 h8, ih]
      rfl


theorem parseJString_jstr (s : String) (rest : List Char) :
    parseJString (jstr s ++ rest) = some (s, rest) := by
  unfold jstr
  simp only [List.cons_append, List.append_assoc, List.singleton_append]
  rw [parseJString]
  simp only [if_pos rfl]
  rw [parseStringBody_flatten]
  rfl

theorem digitVal_digitChar {d : Nat} (h : d < 10) : digitVal (Char.ofNat (48 + d)) = some d := by
  interval_cases d <;> decide

theorem digitChar_ne_minus {d : Nat} (h : d < 10) : ¬ Char.ofNat (48 + d) = '-' := by
  interval_cases d <;> decide

theorem natDecimalAux_append : ∀ (fuel n : Nat) (acc rest : List Char),
    natDecimalAux fuel n acc ++ rest = natDecimalAux fuel n (acc ++ rest) := by
  intro fuel
  induction fuel with
  | zero => intro n acc rest; rfl
  | succ fuel ih =>
    intro n acc rest
    rw [natDecimalAux, natDecimalAux]
    split_ifs with h
    · rw [List.cons_append]
    · rw [ih, List.cons_append]

theorem nat_lt_pow_succ (n : Nat) : n < 10 ^ (n + 1) := by
  have h1 : n < 10 ^ n := Nat.lt_pow_self (by omega) n
  have h2 : 10 ^ n ≤ 10 ^ (n + 1) := Nat.pow_le_pow_right (by omega) (Nat.le_succ n)
  omega

theorem takeDigits_natDecimalAux : ∀ (fuel n : Nat) (rest : List Char), n < 10 ^ (fuel + 1) →
    ∃ k, 1 ≤ k ∧ ∀ a c : Nat, takeDigits (natDecimalAux (fuel + 1) n rest) a c =
      takeDigits rest (a * 10 ^ k + n) (c + k) := by
  intro fuel
  induction fuel with
  | zero =>
    intro n rest h
    refine ⟨1, le_refl 1, fun a c => ?_⟩
    rw [natDecimalAux, if_pos (by omega)]
    have hd := digitVal_digitChar (show n < 10 by omega)
    simp only [takeDigits, hd, pow_one]
  | succ fuel ih =>
    intro n rest h
    by_cases h10 : n < 10
    · refine ⟨1, le_refl 1, fun a c => ?_⟩
      rw [natDecimalAux, if_pos h10]
      have hd := digitVal_digitChar h10
      simp only [takeDigits, hd, pow_one]
    · have hdiv : n / 10 < 10 ^ (fuel + 1) := by
        rw [Nat.div_lt_iff_lt_mul (by omega)]
        calc n < 10 ^ (fuel + 1 + 1) := h
        _ = 10 ^ (fuel + 1) * 10 := by rw [pow_succ]
      obtain ⟨k, hk1, hk⟩ := ih (n / 10) (Char.ofNat (48 + n % 10) :: rest) hdiv
      refine ⟨k + 1, by omega, fun a c => ?_⟩
      rw [natDecimalAux, if_neg h10]
      rw [hk a c]
      have hd := digitVal_digitChar (show n % 10 < 10 by omega)
      simp only [takeDigits, hd]
      have harith : (a * 10 ^ k + n / 10) * 10 + n % 10 = a * 10 ^ (k + 1) + n := by
        rw [pow_succ]
        have := Nat.div_add_mod n 10
        ring_nf
        omega
      have hcount : c + k + 1 = c + (k + 1) := by omega
      rw [harith, hcount]

theorem takeDigits_no_digit (rest : List Char)
    (h : ∀ c cs, rest = c :: cs → digitVal c = none) (a k : Nat) :
    takeDigits rest a k = (a, k, rest) := by
  cases rest with
  | nil => rfl
  | cons c cs => simp only [takeDigits, h c cs rfl]

theorem parseNat_natDecimal (n : Nat) (rest : List Char)
    (hrest : ∀ c cs, rest = c :: cs → digitVal c = none) :
    parseNat (natDecimal n ++ rest) = some (n, rest) := by
  unfold natDecimal parseNat
  rw [natDecimalAux_append, List.nil_append]
  obtain ⟨k, hk1, hk⟩ := takeDigits_natDecimalAux n n rest (nat_lt_pow_succ n)
  rw [hk 0 0]
  rw [takeDigits_no_digit rest hrest]
  simp only []
  rw [if_neg (by omega)]
  have : 0 * 10 ^ k + n = n := by omega
  rw [this]


theorem natDecimalAux_head : ∀ (fuel n : Nat) (acc : List Char), n < 10 ^ (fuel + 1) →
    ∃ d ds, d < 10 ∧ natDecimalAux (fuel + 1) n acc = Char.ofNat (48 + d) :: ds := by
  intro fuel
  induction fuel with
  | zero =>
    intro n acc h
    rw [natDecimalAux, if_pos (by omega)]
    exact ⟨n, acc, by omega, rfl⟩
  | succ fuel ih =>
    intro n acc h
    by_cases h10 : n < 10
    · rw [natDecimalAux, if_pos h10]
      exact ⟨n, acc, h10, rfl⟩
    · rw [natDecimalAux, if_neg h10]
      refine ih (n / 10) _ ?_
      rw [Nat.div_lt_iff_lt_mul (by omega)]
      calc n < 10 ^ (fuel + 1 + 1) := h
      _ = 10 ^ (fuel + 1) * 10 := by rw [pow_succ]

theorem parseInt_intDecimal (i : Int) (rest : List Char)
    (hrest : ∀ c cs, rest = c :: cs → digitVal c = none) :
    parseInt (intDecimal i ++ rest) = some (i, rest) := by
  unfold intDecimal
  split_ifs with hneg
  · rw [List.cons_append, parseInt, if_pos rfl, parseNat_natDecimal _ _ hrest]
    have habs : -((i.natAbs : Int)) = i := by omega
    simp only [Option.map_some']
    rw [habs]
  · obtain ⟨d, ds, hd, hds⟩ := natDecimalAux_head i.toNat i.toNat [] (nat_lt_pow_succ _)
    have hhead : natDecimal i.toNat = Char.ofNat (48 + d) :: ds := hds
    rw [hhead, List.cons_append, parseInt, if_neg (digitChar_ne_minus hd),
      ← List.cons_append, ← hhead, parseNat_natDecimal _ _ hrest]
    have htn : ((i.toNat : Int)) = i := by omega
    simp only [Option.map_some']
    rw [htn]

theorem length_joinSep_jstr : ∀ names : List String,
    names.length ≤ (joinSep [','] (names.map jstr)).length := by
  intro names
  induction names with
  | nil => simp [joinSep]
  | cons s names ih =>
    cases names with
    | nil => simp [joinSep_single, jstr]
    | cons t ts =>
      rw [List.map_cons, List.map_cons, joinSep_cons_cons]
      have h1 : 1 ≤ (jstr s).length := by simp [jstr]
      have h2 := ih
      rw [List.map_cons] at h2
      simp only [List.length_append, List.length_cons] at h2 ⊢
      omega


theorem parseElems_roundtrip : ∀ (names : List String) (fuel : Nat) (rest : List Char),
    names ≠ [] → names.length ≤ fuel →
    parseElems fuel (joinSep [','] (names.map jstr) ++ ']' :: rest) = some (names, rest) := by
  intro names
  induction names with
  | nil => intro fuel rest h _; exact absurd rfl h
  | cons s names ih =>
    intro fuel rest _ hlen
    cases fuel with
    | zero => simp at hlen
    | succ fuel =>
      cases names with
      | nil =>
        rw [List.map_cons, List.map_nil, joinSep_single]
        rw [parseElems, parseJString_jstr s (']' :: rest)]
        rfl
      | cons t ts =>
        rw [List.map_cons, List.map_cons, joinSep_cons_cons, ← List.map_cons]
        rw [List.append_assoc, List.append_assoc]
        rw [parseElems, parseJString_jstr s
          ([','] ++ (joinSep [','] ((t :: ts).map jstr) ++ ']' :: rest))]
        simp only [List.singleton_append]
        rw [if_true]
        rw [ih fuel rest (by simp) (by simp at hlen ⊢; omega)]


theorem parseStringArray_roundtrip (names : List String) (rest : List Char) :
    parseStringArray ('[' :: joinSep [','] (names.map jstr) ++ ']' :: rest) =
      some (names, rest) := by
  simp only [List.cons_append]
  cases names with
  | nil => rfl
  | cons s names =>
    rw [parseStringArray.eq_def]
    simp only []
    rw [if_true]
    have hshape : ∃ tl, joinSep [','] ((s :: names).map jstr) ++ ']' :: rest = '"' :: tl := by
      cases names with
      | nil =>
        rw [List.map_cons, List.map_nil, joinSep_single]
        unfold jstr
        exact ⟨_, rfl⟩
      | cons t ts =>
        rw [List.map_cons, List.map_cons, joinSep_cons_cons]
        unfold jstr
        exact ⟨_, rfl⟩
    obtain ⟨tl, htl⟩ := hshape
    rw [htl]
    simp only []
    rw [if_neg (by decide)]
    rw [← htl]
    rw [parseElems_roundtrip (s :: names) _ rest (by simp) ?_]
    have h1 := length_joinSep_jstr (s :: names)
    have h2 : (joinSep [','] ((s :: names).map jstr) ++ ']' :: rest).length =
        (joinSep [','] ((s :: names).map jstr)).length + rest.length + 1 := by
      rw [List.length_append, List.length_cons]
      omega
    simp only [List.map_cons, List.length_cons] at h1 h2 ⊢
    omega


theorem expectPrefix_append : ∀ (pat rest : List Char),
    expectPrefix pat (pat ++ rest) = some rest := by
  intro pat
  induction pat with
  | nil => intro rest; rfl
  | cons p ps ih =>
    intro rest
    rw [List.cons_append, expectPrefix, if_pos rfl, ih]

/-- C9: round-trip — serializing any normalized record to its JSON line and
re-parsing that line as JSON yields a record equal to the original (same
`song_name`, `added_at`, `artist_names` sequence and `album_name`). -/
theorem C9_serialize_parse_roundtrip (t : TrimmedTrackInfo) :
    parseTrack (serializeTrack t) = some t := by
  have hInt : parseInt (intDecimal t.added_at ++
      ((',' :: jstr "artist_names" ++ [':']) ++
        ('[' :: joinSep [','] (t.artist_names.map jstr) ++ ']' ::
          ((',' :: jstr "album_name" ++ [':']) ++ (jstr t.album_name ++ ['\x7d']))))) =
      some (t.added_at,
        ((',' :: jstr "artist_names" ++ [':']) ++
          ('[' :: joinSep [','] (t.artist_names.map jstr) ++ ']' ::
            ((',' :: jstr "album_name" ++ [':']) ++ (jstr t.album_name ++ ['\x7d']))))) :=
    parseInt_intDecimal _ _ (by
      intro c cs h
      rw [List.cons_append] at h
      injection h with hc _
      rw [← hc]
      decide)
  have hs : serializeTrack t =
      ('\x7b' :: jstr "song_name" ++ [':']) ++
        (jstr t.song_name ++
          ((',' :: jstr "added_at" ++ [':']) ++
            (intDecimal t.added_at ++
              ((',' :: jstr "artist_names" ++ [':']) ++
                ('[' :: joinSep [','] (t.artist_names.map jstr) ++ ']' ::
                  ((',' :: jstr "album_name" ++ [':']) ++
                    (jstr t.album_name ++ ['\x7d']))))))) := by
    simp [serializeTrack, List.append_assoc]
  rw [hs, parseTrack.eq_def]
  rw [expectPrefix_append]
  simp only []
  rw [parseJString_jstr]
  simp only []
  rw [expectPrefix_append]
  simp only []
  rw [hInt]
  simp only []
  rw [expectPrefix_append]
  simp only []
  rw [parseStringArray_roundtrip]
  simp only []
  rw [expectPrefix_append]
  simp only []
  rw [parseJString_jstr]
  simp only []
  rw [if_true]


end SpotifyLikedSongs
